import Mathlib

/-!
Verification of the `system` Go package (qamarian-dtp/system).

The source file contains two concatenated revisions of the package.  The
second (revised) copy adds empty-identifier validation to `AddElement` and an
emptiness guard before `elements[0]` in `InitOrder`; it is embedded here under
the source names (`New`, `AddElement`, `InitOrder`, `addToInitOrder`).  The
first copy's differing functions are embedded as `AddElementV0` and
`InitOrderV0`, with the out-of-range slice read of its loop made explicit.

Helper functions of the external `qamarian-etc/slices` package
(`IsElementInStringSlice`, `IndexInStringSlice`, `RemoveFromStringSlice`) and
`strings.Contains` are modelled by their evident semantics: membership test,
first index or -1, removal of the first occurrence, substring test.

Go's recursion carries no explicit bound; the embedding threads a fuel
argument, decremented at every step, and `none` marks fuel exhaustion.  The
`System` value is threaded through the traversal and returned so that the
read-only (frame) property of `InitOrder` is a provable statement rather than
a modelling artifact.
-/

/-- Boolean test that the first character list is a prefix of the second
(models the prefix comparison inside Go's `strings.Contains`). -/
def isPrefixOfB : List Char → List Char → Bool
  | [], _ => true
  | _ :: _, [] => false
  | a :: as, b :: bs => a = b && isPrefixOfB as bs

/-- Boolean substring test on character lists: does `pat` occur contiguously
inside `s`?  Models Go's `strings.Contains`. -/
def hasSubstring : List Char → List Char → Bool
  | s, pat =>
    if isPrefixOfB pat s then true
    else match s with
      | [] => false
      | _ :: rest => hasSubstring rest pat

/-- Model of Go `strings.Contains (s, sub)`. -/
def stringContains (s sub : String) : Bool :=
  hasSubstring s.data sub.data

/-- Model of `slices.IsElementInStringSlice`: membership test. -/
def IsElementInStringSlice (l : List String) (x : String) : Bool :=
  l.contains x

/-- Model of `slices.IndexInStringSlice`: index of the first occurrence of
`x` in `l`, or `-1` when `x` does not occur. -/
def IndexInStringSlice : List String → String → Int
  | [], _ => -1
  | y :: rest, x =>
    if y = x then 0
    else
      let i := IndexInStringSlice rest x
      if i = -1 then -1 else i + 1

/-- Model of `slices.RemoveFromStringSlice`: removes the first occurrence of
`x` from `l` (every list it is applied to in this development is
duplicate-free, so the choice between first-occurrence and all-occurrence
removal is immaterial). -/
def RemoveFromStringSlice (l : List String) (x : String) : List String :=
  l.erase x

/-- The `System` struct: the insertion-ordered element sequence, the
dependency map (a Go map read returns the zero value `nil` for a missing key,
modelled by a total function defaulting to `[]`), and the redundant
`addedElements` membership string. -/
structure System where
  systemElements : List String
  dependencies : String → List String
  addedElements : String

/-- `system.New`: the empty system. -/
def New : System :=
  ⟨[], fun _ => [], ""⟩

/-- Errors returned by `AddElement`.  `emptyIdentifier` and
`emptyDependencyIdentifier` model the two `errors.New` values of the revised
copy; `alreadyAdded` models `ErrAlreadyAdded`. -/
inductive AddError where
  | emptyIdentifier
  | emptyDependencyIdentifier
  | alreadyAdded
deriving DecidableEq

/-- Errors returned by `InitOrder`.  The payload models the identifier
embedded in the Go error-description string (outpt 2): the element whose
re-visit closed the circle for `ErrCircleDetected`, the missing dependency
for `ErrElementMissing`. -/
inductive OrderError where
  | circleDetected (element : String)
  | elementMissing (dependency : String)
deriving DecidableEq

/-- The revised copy's `AddElement`: validates the identifier and the
dependency identifiers, rejects an id whose `id ++ "/"` occurs in
`addedElements`, and otherwise appends the element, records the dependency
list and extends `addedElements`.  The returned `System` is the receiver
after the call (unchanged on error, since Go returns before any mutation). -/
def AddElement (sys : System) (newElement : String) (dependencies : List String) :
    System × Option AddError :=
  if newElement = "" then (sys, some AddError.emptyIdentifier)
  else if dependencies.any (fun dep => dep = "") then
    (sys, some AddError.emptyDependencyIdentifier)
  else if stringContains sys.addedElements (newElement ++ "/") then
    (sys, some AddError.alreadyAdded)
  else
    ({ systemElements := sys.systemElements ++ [newElement]
       dependencies := fun y => if y = newElement then dependencies else sys.dependencies y
       addedElements := sys.addedElements ++ newElement ++ "/" },
     none)

/-- The first copy's `AddElement`: no empty-string validation, only the
`addedElements` substring check. -/
def AddElementV0 (sys : System) (newElement : String) (dependencies : List String) :
    System × Option AddError :=
  if stringContains sys.addedElements (newElement ++ "/") then
    (sys, some AddError.alreadyAdded)
  else
    ({ systemElements := sys.systemElements ++ [newElement]
       dependencies := fun y => if y = newElement then dependencies else sys.dependencies y
       addedElements := sys.addedElements ++ newElement ++ "/" },
     none)

/-- The system obtained from a (possibly failing) `AddElement` call: the
receiver after the call. -/
def addOk (sys : System) (x : String) (deps : List String) : System :=
  (AddElement sys x deps).1

/-- Control marker for the embedded `addToInitOrder` recursion: `visit e`
is a call of the Go function on element `e`; `deps e rest` is the state of
its dependency loop with the suffix `rest` still to process. -/
inductive Trav where
  | visit (element : String)
  | deps (element : String) (rest : List String)

/-- One-function embedding of the Go `addToInitOrder` recursion (the
function body plus its dependency loop).  Arguments mirror the Go
parameters: accumulated init order, waiting list, remaining elements, plus
the threaded `System`.  `none` means the fuel ran out (the Go recursion has
no such bound); `some (sys, r)` returns the threaded system and either the
error or the pair (new init order, new remaining elements).  The Go
statement `waitingList = slices.RemoveFromStringSlice (waitingList, element)`
before the final return only rebinds a local that is never read again (the
slice parameter was passed by value), so it has no observable effect and no
counterpart here. -/
def go : Nat → System → List String → List String → List String → Trav →
    Option (System × Except OrderError (List String × List String))
  | 0, _, _, _, _, _ => none
  | fuel + 1, sys, initOrder, waitingList, elements, Trav.visit element =>
    if IsElementInStringSlice waitingList element then
      some (sys, Except.error (OrderError.circleDetected element))
    else if (sys.dependencies element).length = 0 then
      some (sys, Except.ok (initOrder ++ [element], RemoveFromStringSlice elements element))
    else
      go fuel sys initOrder (waitingList ++ [element]) elements
        (Trav.deps element (sys.dependencies element))
  | _ + 1, sys, initOrder, _, elements, Trav.deps element [] =>
    some (sys, Except.ok (initOrder ++ [element], RemoveFromStringSlice elements element))
  | fuel + 1, sys, initOrder, waitingList, elements, Trav.deps element (dep :: rest) =>
    if IsElementInStringSlice initOrder dep then
      go fuel sys initOrder waitingList elements (Trav.deps element rest)
    else if IndexInStringSlice elements dep = -1 then
      some (sys, Except.error (OrderError.elementMissing dep))
    else
      match go fuel sys initOrder waitingList elements (Trav.visit dep) with
      | none => none
      | some (sys', Except.error e) => some (sys', Except.error e)
      | some (sys', Except.ok (initOrder', elements')) =>
        go fuel sys' initOrder' waitingList elements' (Trav.deps element rest)

/-- The Go `addToInitOrder` function proper: a `visit` call of `go`. -/
def addToInitOrder (fuel : Nat) (sys : System) (initOrder : List String)
    (element : String) (waitingList : List String) (elements : List String) :
    Option (System × Except OrderError (List String × List String)) :=
  go fuel sys initOrder waitingList elements (Trav.visit element)

/-- The revised copy's `InitOrder` loop: checks emptiness, then processes
`elements[0]` with `addToInitOrder` with an empty waiting list, propagating
errors.  `callFuel` is the fuel handed to each `addToInitOrder` call,
`loopFuel` bounds the loop iterations. -/
def initLoop (callFuel : Nat) : Nat → System → List String → List String →
    Option (System × Except OrderError (List String))
  | 0, _, _, _ => none
  | loopFuel + 1, sys, initOrder, elements =>
    match elements with
    | [] => some (sys, Except.ok initOrder)
    | e0 :: _ =>
      match addToInitOrder callFuel sys initOrder e0 [] elements with
      | none => none
      | some (sys', Except.error err) => some (sys', Except.error err)
      | some (sys', Except.ok (initOrder', elements')) =>
        initLoop callFuel loopFuel sys' initOrder' elements'

/-- Fuel bound used by the embedded `InitOrder`: generously larger than the
number of recursion steps any run of the Go traversal can take. -/
def sysSize (sys : System) : Nat :=
  sys.systemElements.length +
    (sys.systemElements.map (fun x => (sys.dependencies x).length)).sum

/-- The revised copy's `InitOrder`: runs the loop on the system's element
sequence starting from an empty init order and waiting list. -/
def InitOrder (sys : System) : Option (System × Except OrderError (List String)) :=
  initLoop (2 * sysSize sys + 4) (sys.systemElements.length + 1) sys [] sys.systemElements

/-- Result of the first copy's `InitOrder`.  `indexPanic` marks the Go
runtime panic raised by `elements [0]` on an empty slice. -/
inductive V0Result where
  | ok (order : List String)
  | fail (e : OrderError)
  | indexPanic
deriving DecidableEq

/-- The first copy's `InitOrder` loop: reads `elements [0]` BEFORE any
emptiness check (the emptiness test runs only after a successful iteration),
so on an empty element sequence the read faults — modelled by
`V0Result.indexPanic`. -/
def initLoopV0 (callFuel : Nat) : Nat → System → List String → List String →
    Option V0Result
  | 0, _, _, _ => none
  | loopFuel + 1, sys, initOrder, elements =>
    match elements with
    | [] => some V0Result.indexPanic
    | e0 :: _ =>
      match addToInitOrder callFuel sys initOrder e0 [] elements with
      | none => none
      | some (_, Except.error err) => some (V0Result.fail err)
      | some (sys', Except.ok (initOrder', elements')) =>
        if elements'.length = 0 then some (V0Result.ok initOrder')
        else initLoopV0 callFuel loopFuel sys' initOrder' elements'

/-- The first copy's `InitOrder`. -/
def InitOrderV0 (sys : System) : Option V0Result :=
  initLoopV0 (2 * sysSize sys + 4) (sys.systemElements.length + 1) sys [] sys.systemElements

/-- Systems built by the package API: `New` followed by `AddElement` calls
(failing calls leave the receiver unchanged, so they are covered too). -/
inductive Reachable : System → Prop
  | new : Reachable New
  | add (sys : System) (x : String) (deps : List String) :
      Reachable sys → Reachable (AddElement sys x deps).1

/-- Invariant of the traversal state: the accumulated init order and the
remaining working list are duplicate-free, together they contain exactly the
identifiers of the system, and they are disjoint. -/
def StateInv (sys : System) (initOrder elements : List String) : Prop :=
  initOrder.Nodup ∧ elements.Nodup ∧
    (∀ x, x ∈ sys.systemElements ↔ (x ∈ initOrder ∨ x ∈ elements)) ∧
    (∀ x, x ∈ initOrder → x ∉ elements)

/-- The init order is dependency-closed: wherever the list splits around an
element, every dependency of that element lies strictly before it. -/
def DepsClosed (sys : System) (l : List String) : Prop :=
  ∀ p x s, l = p ++ x :: s → ∀ d ∈ sys.dependencies x, d ∈ p

/-- The concrete linear example of the spec: A, then B after A, then C after
A and B. -/
def sysLinear : System :=
  addOk (addOk (addOk New "A" []) "B" ["A"]) "C" ["A", "B"]

/-- Self-cycle example: a single element depending on itself. -/
def sysSelf : System :=
  addOk New "A" ["A"]

/-- Mutual-cycle example: X and Y depending on each other. -/
def sysMutual : System :=
  addOk (addOk New "X" ["Y"]) "Y" ["X"]

/-- Missing-dependency example: A depending on the absent Z. -/
def sysAZ : System :=
  addOk New "A" ["Z"]


/-- `isPrefixOfB` decides the prefix relation. -/
lemma isPrefixOfB_iff : ∀ p l : List Char, isPrefixOfB p l = true ↔ ∃ r, l = p ++ r := by
  intro p
  induction p with
  | nil => intro l; simp [isPrefixOfB]
  | cons a as ih =>
    intro l
    cases l with
    | nil => simp [isPrefixOfB]
    | cons b bs =>
      simp only [isPrefixOfB, Bool.and_eq_true, decide_eq_true_eq, ih bs, List.cons_append]
      constructor
      · rintro ⟨hab, r, hr⟩
        exact ⟨r, by rw [hab, hr]⟩
      · rintro ⟨r, hr⟩
        obtain ⟨h1, h2⟩ := List.cons_eq_cons.mp hr
        exact ⟨h1.symm, r, h2⟩

/-- `hasSubstring` decides the contiguous-substring relation. -/
lemma hasSubstring_iff : ∀ s p : List Char, hasSubstring s p = true ↔ ∃ u v, s = u ++ p ++ v := by
  intro s
  induction s with
  | nil =>
    intro p
    rw [hasSubstring]
    constructor
    · intro h
      split at h
      · rename_i hpre
        obtain ⟨r, hr⟩ := (isPrefixOfB_iff p []).mp hpre
        exact ⟨[], r, by simpa using hr⟩
      · exact absurd h (by simp)
    · rintro ⟨u, v, huv⟩
      have hu : u = [] := by
        cases u with
        | nil => rfl
        | cons c cs => simp at huv
      subst hu
      have hp : p = [] := by
        cases p with
        | nil => rfl
        | cons c cs => simp at huv
      subst hp
      simp [isPrefixOfB]
  | cons c rest ih =>
    intro p
    rw [hasSubstring]
    by_cases hpre : isPrefixOfB p (c :: rest) = true
    · obtain ⟨r, hr⟩ := (isPrefixOfB_iff p (c :: rest)).mp hpre
      simp only [hpre, if_true, true_iff]
      exact ⟨[], r, by simpa using hr⟩
    · rw [if_neg hpre]
      rw [ih p]
      constructor
      · rintro ⟨u, v, huv⟩
        exact ⟨c :: u, v, by simp [huv]⟩
      · rintro ⟨u, v, huv⟩
        cases u with
        | nil =>
          exfalso
          apply hpre
          rw [isPrefixOfB_iff]
          exact ⟨v, by simpa using huv⟩
        | cons d ds =>
          obtain ⟨h1, h2⟩ := List.cons_eq_cons.mp huv
          exact ⟨ds, v, by simpa using h2⟩

/-- Membership reading of the `IsElementInStringSlice` model. -/
lemma isElement_iff (l : List String) (x : String) :
    IsElementInStringSlice l x = true ↔ x ∈ l := by
  simp [IsElementInStringSlice]

/-- `IndexInStringSlice` never returns an integer below `-1`. -/
lemma indexInStringSlice_nonneg (x : String) :
    ∀ l : List String, IndexInStringSlice l x = -1 ∨ 0 ≤ IndexInStringSlice l x := by
  intro l
  induction l with
  | nil => left; rfl
  | cons y rest ih =>
    by_cases hyx : y = x
    · right; simp [IndexInStringSlice, hyx]
    · simp only [IndexInStringSlice, if_neg hyx]
      rcases ih with h | h
      · left; simp [h]
      · by_cases hm : IndexInStringSlice rest x = -1
        · left; simp [hm]
        · right; simp only [if_neg hm]; omega

/-- The `-1` result of `IndexInStringSlice` characterizes non-membership. -/
lemma indexInStringSlice_eq_neg_one (x : String) :
    ∀ l : List String, IndexInStringSlice l x = -1 ↔ x ∉ l := by
  intro l
  induction l with
  | nil => simp [IndexInStringSlice]
  | cons y rest ih =>
    by_cases hyx : y = x
    · simp [IndexInStringSlice, hyx]
    · simp only [IndexInStringSlice, if_neg hyx, List.mem_cons]
      by_cases hm : IndexInStringSlice rest x = -1
      · simp only [hm, if_true, true_iff]
        push_neg
        exact ⟨fun hx => hyx hx.symm, ih.mp hm⟩
      · simp only [if_neg hm]
        have h0 : 0 ≤ IndexInStringSlice rest x :=
          (indexInStringSlice_nonneg x rest).resolve_left hm
        have hxr : x ∈ rest := by
          by_contra hxr
          exact hm (ih.mpr hxr)
        constructor
        · intro habs; exfalso; omega
        · intro habs; exact absurd (Or.inr hxr) habs

/-- Frame property of the embedded `addToInitOrder` recursion: whatever the
outcome, the threaded system comes back unchanged — the traversal only reads
the graph. -/
lemma go_frame : ∀ (fuel : Nat) (sys : System) (io w e : List String) (t : Trav)
    (s' : System) (r : Except OrderError (List String × List String)),
    go fuel sys io w e t = some (s', r) → s' = sys := by
  intro fuel
  induction fuel with
  | zero =>
    intro sys io w e t s' r h
    simp [go] at h
  | succ n ih =>
    intro sys io w e t s' r h
    cases t with
    | visit elem =>
      simp only [go] at h
      split at h
      · simp only [Option.some.injEq, Prod.mk.injEq] at h
        exact h.1.symm
      · split at h
        · simp only [Option.some.injEq, Prod.mk.injEq] at h
          exact h.1.symm
        · exact ih sys io (w ++ [elem]) e _ s' r h
    | deps elem rest =>
      cases rest with
      | nil =>
        simp only [go, Option.some.injEq, Prod.mk.injEq] at h
        exact h.1.symm
      | cons dep rest' =>
        simp only [go] at h
        split at h
        · exact ih sys io w e _ s' r h
        · split at h
          · simp only [Option.some.injEq, Prod.mk.injEq] at h
            exact h.1.symm
          · cases hg : go n sys io w e (Trav.visit dep) with
            | none => rw [hg] at h; simp at h
            | some p =>
              obtain ⟨s₂, r₂⟩ := p
              rw [hg] at h
              cases r₂ with
              | error err =>
                simp only [Option.some.injEq, Prod.mk.injEq] at h
                exact h.1.symm.trans (ih sys io w e _ s₂ _ hg)
              | ok pair =>
                obtain ⟨io₂, e₂⟩ := pair
                have h2 : s₂ = sys := ih sys io w e _ s₂ _ hg
                have h3 : s' = s₂ := ih s₂ io₂ w e₂ _ s' r h
                exact h3.trans h2

/-- Frame property of the `InitOrder` loop. -/
lemma initLoop_frame : ∀ (loopFuel callFuel : Nat) (sys : System) (io e : List String)
    (s' : System) (r : Except OrderError (List String)),
    initLoop callFuel loopFuel sys io e = some (s', r) → s' = sys := by
  intro loopFuel
  induction loopFuel with
  | zero =>
    intro callFuel sys io e s' r h
    simp [initLoop] at h
  | succ n ih =>
    intro callFuel sys io e s' r h
    cases e with
    | nil =>
      simp only [initLoop, Option.some.injEq, Prod.mk.injEq] at h
      exact h.1.symm
    | cons e0 tail =>
      simp only [initLoop] at h
      cases hg : addToInitOrder callFuel sys io e0 [] (e0 :: tail) with
      | none => rw [hg] at h; simp at h
      | some p =>
        obtain ⟨s₂, r₂⟩ := p
        rw [hg] at h
        cases r₂ with
        | error err =>
          simp only [Option.some.injEq, Prod.mk.injEq] at h
          exact h.1.symm.trans (go_frame callFuel sys io [] (e0 :: tail) _ s₂ _ hg)
        | ok pair =>
          obtain ⟨io₂, e₂⟩ := pair
          have h2 : s₂ = sys := go_frame callFuel sys io [] (e0 :: tail) _ s₂ _ hg
          have h3 : s' = s₂ := ih callFuel s₂ io₂ e₂ s' r h
          exact h3.trans h2

/-- Frame property of `InitOrder` itself: the system returned with any
result (success or error) is the one it was called on. -/
lemma initOrder_frame (sys s' : System) (r : Except OrderError (List String))
    (h : InitOrder sys = some (s', r)) : s' = sys :=
  initLoop_frame (sys.systemElements.length + 1) (2 * sysSize sys + 4) sys []
    sys.systemElements s' r h

/-- The empty init order is dependency-closed. -/
lemma depsClosed_nil (sys : System) : DepsClosed sys [] := by
  intro p x s hx
  exact absurd hx (by simp)

/-- Appending an element to the working state: the invariant is preserved
when the element moves from the remaining list to the init order. -/
lemma stateInv_append (sys : System) (io e : List String) (elem : String)
    (hI : StateInv sys io e) (he : elem ∈ e) :
    StateInv sys (io ++ [elem]) (RemoveFromStringSlice e elem) := by
  obtain ⟨hnio, hne, hpart, hdisj⟩ := hI
  have helemio : elem ∉ io := fun hmem => hdisj elem hmem he
  refine ⟨?_, ?_, ?_, ?_⟩
  · rw [List.nodup_append]
    exact ⟨hnio, List.nodup_singleton elem, by
      intro a ha hb
      simp only [List.mem_singleton] at hb
      exact helemio (hb ▸ ha)⟩
  · exact hne.erase elem
  · intro x
    rw [hpart x]
    by_cases hx : x = elem
    · subst hx
      simp [he]
    · rw [RemoveFromStringSlice, hne.mem_erase_iff]
      simp only [List.mem_append, List.mem_singleton, hx, or_false, ne_eq,
        not_false_iff, true_and]
  · intro x hx
    rw [RemoveFromStringSlice, hne.mem_erase_iff]
    rcases List.mem_append.mp hx with hx1 | hx2
    · rintro ⟨_, hx3⟩
      exact hdisj x hx1 hx3
    · simp only [List.mem_singleton] at hx2
      subst hx2
      rintro ⟨hx3, _⟩
      exact hx3 rfl

/-- Appending an element whose dependencies are all already placed keeps the
init order dependency-closed. -/
lemma depsClosed_append (sys : System) (io : List String) (elem : String)
    (hD : DepsClosed sys io) (hdeps : ∀ d ∈ sys.dependencies elem, d ∈ io) :
    DepsClosed sys (io ++ [elem]) := by
  intro p x s hsplit d hd
  rcases List.append_eq_append_iff.mp hsplit with ⟨a', ha1, ha2⟩ | ⟨c', hc1, hc2⟩
  · cases a' with
    | nil =>
      simp only [List.nil_append] at ha2
      obtain ⟨h1, _⟩ := List.cons_eq_cons.mp ha2
      rw [List.append_nil] at ha1
      subst ha1
      subst h1
      exact hdeps d hd
    | cons b bs =>
      exfalso
      simp only [List.cons_append] at ha2
      obtain ⟨_, h2⟩ := List.cons_eq_cons.mp ha2
      exact absurd h2.symm (by simp)
  · cases c' with
    | nil =>
      simp only [List.nil_append] at hc2
      obtain ⟨h1, _⟩ := List.cons_eq_cons.mp hc2
      rw [List.append_nil] at hc1
      subst hc1
      subst h1
      exact hdeps d hd
    | cons b bs =>
      simp only [List.cons_append] at hc2
      obtain ⟨h1, _⟩ := List.cons_eq_cons.mp hc2
      have hio : io = p ++ x :: bs := by
        rw [hc1, h1]
      exact hD p x bs hio d hd

/-- Every system reachable through the API has duplicate-free elements, and
`addedElements` holds `y ++ "/"` as a substring for exactly the recorded
reads needed by the duplicate check. -/
lemma reachable_props (sys : System) (hr : Reachable sys) :
    sys.systemElements.Nodup ∧
      ∀ y ∈ sys.systemElements, stringContains sys.addedElements (y ++ "/") = true := by
  induction hr with
  | new => exact ⟨List.nodup_nil, by intro y hy; exact absurd hy (by simp [New])⟩
  | add sys' x deps hr' ih =>
    obtain ⟨hnd, hsub⟩ := ih
    rw [AddElement]
    split
    · exact ⟨hnd, hsub⟩
    · split
      · exact ⟨hnd, hsub⟩
      · split
        · exact ⟨hnd, hsub⟩
        · rename_i hx1 hx2 hx3
          constructor
          · rw [List.nodup_append]
            refine ⟨hnd, List.nodup_singleton x, ?_⟩
            intro a ha hb
            simp only [List.mem_singleton] at hb
            subst hb
            exact hx3 (hsub a ha)
          · intro y hy
            rcases List.mem_append.mp hy with hy1 | hy2
            · have := hsub y hy1
              rw [stringContains, hasSubstring_iff] at this ⊢
              obtain ⟨u, v, huv⟩ := this
              refine ⟨u, v ++ (x ++ "/").data, ?_⟩
              show (sys'.addedElements ++ x ++ "/").data = _
              rw [String.data_append, String.data_append, huv]
              simp [String.data_append]
            · simp only [List.mem_singleton] at hy2
              subst hy2
              rw [stringContains, hasSubstring_iff]
              refine ⟨sys'.addedElements.data, [], ?_⟩
              show (sys'.addedElements ++ y ++ "/").data = _
              rw [String.data_append, String.data_append]
              simp [String.data_append]

/-- Master preservation lemma of the traversal.  For a `visit elem` entry
with the state invariant, a dependency-closed init order and `elem` among
the remaining elements, a successful call extends the init order only with
elements outside the waiting list (`elem` included), preserves the state
invariant and dependency closure, and places `elem`.  For a `deps elem rest`
loop state the same holds with `elem` (already on the waiting list) appended
last, provided every dependency of `elem` outside `rest` is already placed. -/
lemma go_master : ∀ (fuel : Nat) (sys : System) (io w e : List String) (t : Trav)
    (s' : System) (io' e' : List String),
    go fuel sys io w e t = some (s', Except.ok (io', e')) →
    StateInv sys io e → DepsClosed sys io →
    (match t with
     | Trav.visit elem =>
        elem ∈ e →
        (∃ Δ, io' = io ++ Δ ∧ ∀ x ∈ Δ, x ∉ w) ∧ StateInv sys io' e' ∧
          DepsClosed sys io' ∧ elem ∈ io'
     | Trav.deps elem rest =>
        elem ∈ e → elem ∈ w →
        (∀ d ∈ sys.dependencies elem, d ∉ rest → d ∈ io) →
        (∃ Δ, io' = io ++ Δ ++ [elem] ∧ ∀ x ∈ Δ, x ∉ w) ∧ StateInv sys io' e' ∧
          DepsClosed sys io') := by
  intro fuel
  induction fuel with
  | zero =>
    intro sys io w e t s' io' e' h
    simp [go] at h
  | succ n ih =>
    intro sys io w e t s' io' e' h hI hD
    cases t with
    | visit elem =>
      intro helem
      simp only [go] at h
      split at h
      · simp at h
      · rename_i hw
        split at h
        · rename_i hlen
          simp only [Option.some.injEq, Prod.mk.injEq, Except.ok.injEq] at h
          obtain ⟨hs, hio, he'⟩ := h
          subst hio
          subst he'
          have helemw : elem ∉ w := fun hmem => hw ((isElement_iff w elem).mpr hmem)
          have hdeps : ∀ d ∈ sys.dependencies elem, d ∈ io := by
            intro d hd
            rw [List.length_eq_zero.mp hlen] at hd
            exact absurd hd (by simp)
          refine ⟨⟨[elem], rfl, ?_⟩, stateInv_append sys io e elem hI helem,
            depsClosed_append sys io elem hD hdeps, by simp⟩
          intro x hx
          simp only [List.mem_singleton] at hx
          subst hx
          exact helemw
        · rename_i hlen
          have helemw : elem ∉ w := fun hmem => hw ((isElement_iff w elem).mpr hmem)
          have hmain := ih sys io (w ++ [elem]) e (Trav.deps elem (sys.dependencies elem))
            s' io' e' h hI hD
          obtain ⟨⟨Δ, hio', hΔ⟩, hI', hD'⟩ := hmain helem (by simp)
            (fun d hd hnd => absurd hd hnd)
          refine ⟨⟨Δ ++ [elem], ?_, ?_⟩, hI', hD', ?_⟩
          · rw [hio', List.append_assoc]
          · intro x hx
            rcases List.mem_append.mp hx with hx1 | hx2
            · intro hxw
              exact hΔ x hx1 (List.mem_append.mpr (Or.inl hxw))
            · simp only [List.mem_singleton] at hx2
              subst hx2
              exact helemw
          · rw [hio']
            simp
    | deps elem rest =>
      intro helem helemw hdone
      cases rest with
      | nil =>
        simp only [go, Option.some.injEq, Prod.mk.injEq, Except.ok.injEq] at h
        obtain ⟨hs, hio, he'⟩ := h
        subst hio
        subst he'
        have hdeps : ∀ d ∈ sys.dependencies elem, d ∈ io :=
          fun d hd => hdone d hd (by simp)
        exact ⟨⟨[], by simp, by simp⟩, stateInv_append sys io e elem hI helem,
          depsClosed_append sys io elem hD hdeps⟩
      | cons dep rest' =>
        simp only [go] at h
        split at h
        · rename_i hdepio
          have hdepio' : dep ∈ io := (isElement_iff io dep).mp hdepio
          have hdone' : ∀ d ∈ sys.dependencies elem, d ∉ rest' → d ∈ io := by
            intro d hd hnd
            by_cases hddep : d = dep
            · subst hddep; exact hdepio'
            · exact hdone d hd (by
                simp only [List.mem_cons, not_or]
                exact ⟨hddep, hnd⟩)
          exact ih sys io w e (Trav.deps elem rest') s' io' e' h hI hD helem helemw hdone'
        · split at h
          · simp at h
          · rename_i hdepio hdepe
            have hdepio' : dep ∉ io := fun hmem => hdepio ((isElement_iff io dep).mpr hmem)
            have hdepe' : dep ∈ e := by
              by_contra hmem
              exact hdepe ((indexInStringSlice_eq_neg_one dep e).mpr hmem)
            cases hg : go n sys io w e (Trav.visit dep) with
            | none => rw [hg] at h; simp at h
            | some p =>
              obtain ⟨s₂, r₂⟩ := p
              rw [hg] at h
              cases r₂ with
              | error err => simp at h
              | ok pair =>
                obtain ⟨io₂, e₂⟩ := pair
                have hs₂ : s₂ = sys := go_frame n sys io w e _ s₂ _ hg
                rw [hs₂] at h
                have hvisit := ih sys io w e (Trav.visit dep) s₂ io₂ e₂ hg hI hD hdepe'
                obtain ⟨⟨Δ₁, hio₂, hΔ₁⟩, hI₂, hD₂, hdep₂⟩ := hvisit
                have helemio : elem ∉ io := fun hmem => hI.2.2.2 elem hmem helem
                have helemsys : elem ∈ sys.systemElements := (hI.2.2.1 elem).mpr (Or.inr helem)
                have helemio₂ : elem ∉ io₂ := by
                  rw [hio₂]
                  intro hmem
                  rcases List.mem_append.mp hmem with h1 | h2
                  · exact helemio h1
                  · exact hΔ₁ elem h2 helemw
                have heleme₂ : elem ∈ e₂ :=
                  ((hI₂.2.2.1 elem).mp helemsys).resolve_left helemio₂
                have hdone₂ : ∀ d ∈ sys.dependencies elem, d ∉ rest' → d ∈ io₂ := by
                  intro d hd hnd
                  by_cases hddep : d = dep
                  · subst hddep; exact hdep₂
                  · rw [hio₂]
                    exact List.mem_append.mpr (Or.inl (hdone d hd (by
                      simp only [List.mem_cons, not_or]
                      exact ⟨hddep, hnd⟩)))
                have hrest := ih sys io₂ w e₂ (Trav.deps elem rest') s' io' e' h hI₂ hD₂
                  heleme₂ helemw hdone₂
                obtain ⟨⟨Δ₂, hio', hΔ₂⟩, hI', hD'⟩ := hrest
                refine ⟨⟨Δ₁ ++ Δ₂, ?_, ?_⟩, hI', hD'⟩
                · rw [hio', hio₂]
                  simp [List.append_assoc]
                · intro x hx
                  rcases List.mem_append.mp hx with hx1 | hx2
                  · exact hΔ₁ x hx1
                  · exact hΔ₂ x hx2

/-- The `InitOrder` loop preserves the state invariant and dependency
closure; on success the remaining list is drained and the accumulated init
order satisfies both. -/
lemma initLoop_master : ∀ (loopFuel callFuel : Nat) (sys : System) (io e : List String)
    (s' : System) (order : List String),
    initLoop callFuel loopFuel sys io e = some (s', Except.ok order) →
    StateInv sys io e → DepsClosed sys io →
    StateInv sys order [] ∧ DepsClosed sys order := by
  intro loopFuel
  induction loopFuel with
  | zero =>
    intro callFuel sys io e s' order h
    simp [initLoop] at h
  | succ n ih =>
    intro callFuel sys io e s' order h hI hD
    cases e with
    | nil =>
      simp only [initLoop, Option.some.injEq, Prod.mk.injEq, Except.ok.injEq] at h
      obtain ⟨_, hio⟩ := h
      subst hio
      exact ⟨hI, hD⟩
    | cons e0 tail =>
      simp only [initLoop] at h
      cases hg : addToInitOrder callFuel sys io e0 [] (e0 :: tail) with
      | none => rw [hg] at h; simp at h
      | some p =>
        obtain ⟨s₂, r₂⟩ := p
        rw [hg] at h
        cases r₂ with
        | error err => simp at h
        | ok pair =>
          obtain ⟨io₂, e₂⟩ := pair
          have hs₂ : s₂ = sys := go_frame callFuel sys io [] (e0 :: tail) _ s₂ _ hg
          rw [hs₂] at h
          have hmain := go_master callFuel sys io [] (e0 :: tail) (Trav.visit e0)
            s₂ io₂ e₂ hg hI hD (by simp)
          obtain ⟨_, hI₂, hD₂, _⟩ := hmain
          exact ih callFuel sys io₂ e₂ s' order h hI₂ hD₂

/-- The initial traversal state of an `InitOrder` call on an API-built
system satisfies the invariant. -/
lemma stateInv_initial (sys : System) (hr : Reachable sys) :
    StateInv sys [] sys.systemElements :=
  ⟨List.nodup_nil, (reachable_props sys hr).1, by simp, by simp⟩

/-- C1: for every API-built graph on which `InitOrder` succeeds, the
returned sequence contains every identifier of the graph exactly once, and
for every element and every dependency of it that is also in the graph, the
dependency appears strictly before the element in the sequence. -/
theorem initOrder_complete_ordered (sys s' : System) (order : List String)
    (hr : Reachable sys) (h : InitOrder sys = some (s', Except.ok order)) :
    (∀ x, x ∈ order ↔ x ∈ sys.systemElements) ∧
    (∀ x ∈ sys.systemElements, order.count x = 1) ∧
    (∀ p x s, order = p ++ x :: s → ∀ d ∈ sys.dependencies x,
        d ∈ sys.systemElements → d ∈ p) := by
  have hmain := initLoop_master (sys.systemElements.length + 1) (2 * sysSize sys + 4)
    sys [] sys.systemElements s' order h (stateInv_initial sys hr) (depsClosed_nil sys)
  obtain ⟨⟨hnd, _, hpart, _⟩, hD⟩ := hmain
  have hmem : ∀ x, x ∈ order ↔ x ∈ sys.systemElements := by
    intro x
    rw [hpart x]
    simp
  refine ⟨hmem, ?_, ?_⟩
  · intro x hx
    exact List.count_eq_one_of_mem hnd ((hmem x).mpr hx)
  · intro p x s hsplit d hd _
    exact hD p x s hsplit d hd

/-- Witness for C1 at the concrete linear example A, B after A, C after A
and B: the order is A, B, C, contains B once, and B lies before C. -/
theorem initOrder_complete_ordered_witness :
    (["A", "B", "C"] : List String).count "B" = 1 ∧
      ("A" : String) ∈ (["A"] : List String) := by
  have hr : Reachable sysLinear :=
    Reachable.add _ "C" ["A", "B"]
      (Reachable.add _ "B" ["A"] (Reachable.add _ "A" [] Reachable.new))
  have h := initOrder_complete_ordered sysLinear sysLinear ["A", "B", "C"] hr (by rfl)
  refine ⟨h.2.1 "B" (by decide), ?_⟩
  exact h.2.2 ["A"] "B" ["C"] (by rfl) "A" (by decide) (by decide)

/-- C2: on the empty system the revised `InitOrder` returns an empty order
and no error, while the first copy's `InitOrder` reads `elements [0]` before
any emptiness check and faults with an index-out-of-range panic. -/
theorem initOrder_empty_graph :
    InitOrder New = some (New, Except.ok []) ∧
      InitOrderV0 New = some V0Result.indexPanic :=
  ⟨rfl, rfl⟩

/-- C3: the `AlreadyAdded` membership test is a substring check, so after
adding "AB" the absent identifier "B" is rejected with `AlreadyAdded`
(because `"B/"` occurs inside `"AB/"`) even though "B" is not in the graph. -/
theorem alreadyAdded_collision :
    (AddElement (addOk New "AB" []) "B" []).2 = some AddError.alreadyAdded ∧
      "B" ∉ (addOk New "AB" []).systemElements := by
  exact ⟨rfl, by decide⟩

/-- C4: `InitOrder` is read-only — on any outcome the system it returns is
field-by-field the one it was called on. -/
theorem initOrder_readonly (sys s' : System) (r : Except OrderError (List String))
    (h : InitOrder sys = some (s', r)) :
    s'.systemElements = sys.systemElements ∧
      (∀ x, s'.dependencies x = sys.dependencies x) ∧
      s'.addedElements = sys.addedElements := by
  have hfr := initOrder_frame sys s' r h
  subst hfr
  exact ⟨rfl, fun _ => rfl, rfl⟩

/-- Witness for C4 at the linear example. -/
theorem initOrder_readonly_witness :
    sysLinear.systemElements = sysLinear.systemElements :=
  (initOrder_readonly sysLinear sysLinear (Except.ok ["A", "B", "C"]) (by rfl)).1

/-- C5: visiting an identifier already on the waiting list makes
`addToInitOrder` fail immediately with `CircleDetected` naming that
identifier; concretely, a self-cycle makes `InitOrder` fail with
`CircleDetected ("A")` and a mutual two-cycle with `CircleDetected ("X")`. -/
theorem circle_detection (fuel : Nat) (sys : System) (io w e : List String)
    (elem : String) (hw : IsElementInStringSlice w elem = true) :
    addToInitOrder (fuel + 1) sys io elem w e =
      some (sys, Except.error (OrderError.circleDetected elem)) ∧
    InitOrder sysSelf = some (sysSelf, Except.error (OrderError.circleDetected "A")) ∧
    InitOrder sysMutual = some (sysMutual, Except.error (OrderError.circleDetected "X")) := by
  refine ⟨?_, by rfl, by rfl⟩
  simp [addToInitOrder, go, hw]

/-- Witness for C5 at a concrete in-progress state. -/
theorem circle_detection_witness :
    addToInitOrder 1 New [] "A" ["A"] [] =
      some (New, Except.error (OrderError.circleDetected "A")) :=
  (circle_detection 0 New [] ["A"] [] "A" (by decide)).1

/-- C6: when the dependency loop reaches a dependency that is in neither the
init order nor the remaining element list (the preceding dependencies all
being skipped as already placed), it fails with `ElementMissing` naming that
dependency; concretely, after only `AddElement ("A", ["Z"])`, `InitOrder`
fails with `ElementMissing ("Z")`. -/
theorem missing_dependency_detection (fuel : Nat) (sys : System) (io w e : List String)
    (elem dep : String) (pre rest : List String)
    (hpre : ∀ p ∈ pre, IsElementInStringSlice io p = true)
    (hdep1 : IsElementInStringSlice io dep = false)
    (hdep2 : IndexInStringSlice e dep = -1) :
    go (pre.length + fuel + 1) sys io w e (Trav.deps elem (pre ++ dep :: rest)) =
      some (sys, Except.error (OrderError.elementMissing dep)) ∧
    InitOrder sysAZ = some (sysAZ, Except.error (OrderError.elementMissing "Z")) := by
  refine ⟨?_, by rfl⟩
  induction pre with
  | nil =>
    simp [go, hdep1, hdep2]
  | cons p pre' ih =>
    have hskip : IsElementInStringSlice io p = true := hpre p (by simp)
    have harith : (p :: pre').length + fuel + 1 = (pre'.length + fuel + 1) + 1 := by
      simp [List.length_cons]
      omega
    rw [harith]
    simp only [go, List.cons_append, hskip, if_true]
    exact ih (fun q hq => hpre q (by simp [hq]))

/-- Witness for C6 at a concrete loop state: dependency "Z" after the
already-placed "A". -/
theorem missing_dependency_detection_witness :
    go 2 New ["A"] [] [] (Trav.deps "B" (["A"] ++ ["Z"] ++ [])) =
      some (New, Except.error (OrderError.elementMissing "Z")) := by
  have h := missing_dependency_detection 0 New ["A"] [] [] "B" "Z" ["A"] []
    (by decide) (by decide) (by decide)
  exact h.1

/-- C7: the revised `AddElement` rejects an empty identifier with the
empty-identifier error and an empty dependency identifier with the
empty-dependency error, storing nothing; the first copy's `AddElement`
performs no such validation and stores the empty identifier. -/
theorem addElement_empty_validation :
    AddElement New "" [] = (New, some AddError.emptyIdentifier) ∧
    AddElement New "A" [""] = (New, some AddError.emptyDependencyIdentifier) ∧
    (AddElementV0 New "" []).2 = none ∧
    (AddElementV0 New "" []).1.systemElements = [""] :=
  ⟨rfl, rfl, rfl, rfl⟩

/-- C8: a second `InitOrder` call on the system returned by a first call
yields the identical result. -/
theorem initOrder_idempotent (sys s' : System) (r : Except OrderError (List String))
    (h : InitOrder sys = some (s', r)) :
    InitOrder s' = some (s', r) := by
  have hfr := initOrder_frame sys s' r h
  subst hfr
  exact h

/-- Witness for C8 at the linear example. -/
theorem initOrder_idempotent_witness :
    InitOrder sysLinear = some (sysLinear, Except.ok ["A", "B", "C"]) :=
  initOrder_idempotent sysLinear sysLinear (Except.ok ["A", "B", "C"]) (by rfl)

/-- C9: a successful `AddElement` records against the identifier exactly the
given dependency sequence in the given order, and a later `AddElement` of a
different identifier leaves it unchanged.  (The Go code stores the caller's
slice itself — `dependencies [newElement] = dependencies` — performing no
copy, which is outside this value-level embedding.) -/
theorem addElement_records_dependencies :
    ((AddElement New "A" ["B"]).1).dependencies "A" = ["B"] ∧
      ((AddElement (AddElement New "A" ["B"]).1 "C" ["A"]).1).dependencies "A" = ["B"] :=
  ⟨rfl, rfl⟩

/-- C10: the traversal invariant.  At the start of an `InitOrder` call on an
API-built system the state invariant holds (each identifier of the graph is
in exactly one of the init order and the remaining working list — initially
the latter); a successful `addToInitOrder` call entered with the invariant,
its element in the working list and every waiting identifier in the working
list, preserves both the invariant and the waiting-list containment; and
under the invariant the code's missing-dependency test — not in the init
order and not in the working list — holds exactly when the identifier was
never added to the graph. -/
theorem traversal_invariant (sys : System) (hr : Reachable sys) :
    StateInv sys [] sys.systemElements ∧
    (∀ fuel io w e elem s' io' e',
        StateInv sys io e → DepsClosed sys io → elem ∈ e → (∀ x ∈ w, x ∈ e) →
        addToInitOrder fuel sys io elem w e = some (s', Except.ok (io', e')) →
        StateInv sys io' e' ∧ (∀ x ∈ w, x ∈ e')) ∧
    (∀ io e d, StateInv sys io e →
        ((IsElementInStringSlice io d = false ∧ IndexInStringSlice e d = -1) ↔
          d ∉ sys.systemElements)) := by
  refine ⟨stateInv_initial sys hr, ?_, ?_⟩
  · intro fuel io w e elem s' io' e' hI hD helem hwcont h
    have hmain := go_master fuel sys io w e (Trav.visit elem) s' io' e' h hI hD helem
    obtain ⟨⟨Δ, hio', hΔ⟩, hI', hD', _⟩ := hmain
    refine ⟨hI', ?_⟩
    intro x hxw
    have hxe : x ∈ e := hwcont x hxw
    have hxsys : x ∈ sys.systemElements := (hI.2.2.1 x).mpr (Or.inr hxe)
    have hxio : x ∉ io := fun hmem => hI.2.2.2 x hmem hxe
    have hxio' : x ∉ io' := by
      rw [hio']
      intro hmem
      rcases List.mem_append.mp hmem with h1 | h2
      · exact hxio h1
      · exact hΔ x h2 hxw
    exact ((hI'.2.2.1 x).mp hxsys).resolve_left hxio'
  · intro io e d hI
    constructor
    · rintro ⟨h1, h2⟩
      have hdio : d ∉ io := by
        intro hmem2
        rw [(isElement_iff io d).mpr hmem2] at h1
        exact absurd h1 (by simp)
      have hde : d ∉ e := (indexInStringSlice_eq_neg_one d e).mp h2
      intro hmem
      rcases (hI.2.2.1 d).mp hmem with hd1 | hd2
      · exact hdio hd1
      · exact hde hd2
    · intro hmem
      have hdio : d ∉ io := fun h1 => hmem ((hI.2.2.1 d).mpr (Or.inl h1))
      have hde : d ∉ e := fun h2 => hmem ((hI.2.2.1 d).mpr (Or.inr h2))
      refine ⟨?_, (indexInStringSlice_eq_neg_one d e).mpr hde⟩
      cases hh : IsElementInStringSlice io d with
      | false => rfl
      | true => exact absurd ((isElement_iff io d).mp hh) hdio

/-- Witness for C10 at the linear example: the missing-dependency test fires
for the never-added identifier "Z" on the initial state. -/
theorem traversal_invariant_witness :
    IsElementInStringSlice [] "Z" = false ∧
      IndexInStringSlice sysLinear.systemElements "Z" = -1 := by
  have hr : Reachable sysLinear :=
    Reachable.add _ "C" ["A", "B"]
      (Reachable.add _ "B" ["A"] (Reachable.add _ "A" [] Reachable.new))
  have h := traversal_invariant sysLinear hr
  exact (h.2.2 [] sysLinear.systemElements "Z" h.1).mpr (by decide)
